import Mathlib

/-
  Shallow embedding of src/BinParser.c (fire-peregrine/bin_parser_writer).

  The reader state is a byte buffer together with a byte/bit cursor.  In the
  source the buffer is a uint8_t pointer with a separate uint64_t length; here
  the buffer is a list of byte values and the length is the list length.
  Machine arithmetic is modelled on Nat with explicit reductions modulo 2^32
  (unsigned int) and 2^64 (uint64_t) at the places where the source performs
  the corresponding machine operations.  Buffer accesses go through List.get?,
  so an access at an index at or beyond the buffer length is observable as a
  distinguished out-of-bounds outcome instead of undefined behaviour.
-/

/-- Reader state: struct BinParser_ (BinParser_local.h).  The buf pointer and
the bufLen field are modelled together as a list of bytes. -/
structure BP where
  buf : List Nat
  posByte : Nat
  posBit : Nat
deriving DecidableEq

/-- Result of one call: the returned int status, the out-parameter (none when
the callee did not write it before returning), and the state of the reader
object after the call.  oob marks a read of the byte buffer at an index at or
beyond the buffer length. -/
inductive BPRes (α : Type) where
  | ret (status : Nat) (val : Option α) (s : BP)
  | oob
deriving DecidableEq

/-- obj->bufLen. -/
def bufLen (s : BP) : Nat := s.buf.length

/-- hasRest: the capacity check.  nextByte is declared unsigned int in the
source, and posBit + bits is unsigned int arithmetic, hence the reductions
modulo 2^32. -/
def hasRest (posByte posBit bytes bits bufLen : Nat) : Bool :=
  let nextByte := (posByte + bytes + ((posBit + bits) % 4294967296) / 8) % 4294967296
  let nextBit := ((posBit + bits) % 4294967296) % 8
  if nextByte < bufLen then true
  else if nextByte = bufLen ∧ nextBit = 0 then true
  else false

/-- isInBuf: posByte < bufLen. -/
def isInBuf (posByte bufLen : Nat) : Bool :=
  if posByte < bufLen then true else false

/-- BIN_PARSER_ADVANCE_POS: posByte is uint64_t, posBit and the bit sum are
unsigned int. -/
def advancePos (posByte posBit bytes bits : Nat) : Nat × Nat :=
  ((posByte + bytes + ((posBit + bits) % 4294967296) / 8) % 18446744073709551616,
   ((posBit + bits) % 4294967296) % 8)

/-- isByteAligned. -/
def isByteAligned (s : BP) : Bool := s.posBit == 0

/-- isAligned: (posByte % bytes == 0) & (posBit == 0). -/
def isAligned (s : BP) (bytes : Nat) : Bool :=
  (s.posByte % bytes == 0) && (s.posBit == 0)

/-- getBool: read one bit MSB-first and advance by one bit. -/
def BinParser_getBool (s : BP) : BPRes Bool :=
  if hasRest s.posByte s.posBit 0 1 (bufLen s) then
    match s.buf.get? s.posByte with
    | none => .oob
    | some byte =>
      let p := advancePos s.posByte s.posBit 0 1
      .ret 0 (some (((byte >>> (7 - s.posBit)) % 2) == 1)) { s with posByte := p.1, posBit := p.2 }
  else .ret 1 none s

/-- The bit-accumulation loop shared by getUInt32 and getUInt64.  In the
source both loops are identical, the accumulator being declared uint32_t in
both functions (including getUInt64); tmpVal = (tmpVal << 1) | bit is
tmpVal * 2 + bit reduced modulo 2^32.  The loop positions are the local
posByte/posBit variables. -/
def readBitsLoop (buf : List Nat) : Nat → Nat → Nat → Nat → Option (Nat × Nat × Nat)
  | 0, tmpVal, posByte, posBit => some (tmpVal, posByte, posBit)
  | n + 1, tmpVal, posByte, posBit =>
    match buf.get? posByte with
    | none => none
    | some byte =>
      readBitsLoop buf n ((tmpVal * 2 + (byte >>> (7 - posBit)) % 2) % 4294967296)
        (posByte + (posBit + 1) / 8) ((posBit + 1) % 8)

/-- getUInt32.  The local posByte is declared unsigned int, truncating the
uint64_t field at initialization. -/
def BinParser_getUInt32 (s : BP) (bits : Nat) : BPRes Nat :=
  if bits = 0 then .ret 0 (some 0) s
  else if hasRest s.posByte s.posBit 0 bits (bufLen s) then
    match readBitsLoop s.buf bits 0 (s.posByte % 4294967296) s.posBit with
    | none => .oob
    | some (tmpVal, _, _) =>
      let p := advancePos s.posByte s.posBit 0 bits
      .ret 0 (some tmpVal) { s with posByte := p.1, posBit := p.2 }
  else .ret 1 none s

/-- getUInt64: textually the same body as getUInt32 in the source, with the
accumulator again declared uint32_t (so the value is reduced modulo 2^32). -/
def BinParser_getUInt64 (s : BP) (bits : Nat) : BPRes Nat :=
  if bits = 0 then .ret 0 (some 0) s
  else if hasRest s.posByte s.posBit 0 bits (bufLen s) then
    match readBitsLoop s.buf bits 0 (s.posByte % 4294967296) s.posBit with
    | none => .oob
    | some (tmpVal, _, _) =>
      let p := advancePos s.posByte s.posBit 0 bits
      .ret 0 (some tmpVal) { s with posByte := p.1, posBit := p.2 }
  else .ret 1 none s

/-- Conversion of a uint32 bit pattern to the int32_t value it stores. -/
def toInt32 (x : Nat) : Int :=
  if x % 4294967296 < 2147483648 then ((x % 4294967296 : Nat) : Int)
  else ((x % 4294967296 : Nat) : Int) - 4294967296

/-- Conversion of a uint64 bit pattern to the int64_t value it stores. -/
def toInt64 (x : Nat) : Int :=
  if x % 18446744073709551616 < 9223372036854775808 then ((x % 18446744073709551616 : Nat) : Int)
  else ((x % 18446744073709551616 : Nat) : Int) - 18446744073709551616

/-- castInt32: sign extension.  mask = (0x1ULL << width) - 1 truncated to
uint32_t; the two return expressions are uint32 bit patterns stored into an
int32_t return value. -/
def castInt32 (val width : Nat) : Int :=
  let mask := (2 ^ width - 1) % 4294967296
  if (val >>> (width - 1)) % 2 = 1 then toInt32 ((4294967295 - mask) ||| (val &&& mask))
  else toInt32 (val &&& mask)

/-- castInt64: sign extension at 64 bits. -/
def castInt64 (val width : Nat) : Int :=
  let mask := (2 ^ width - 1) % 18446744073709551616
  if (val >>> (width - 1)) % 2 = 1 then toInt64 ((18446744073709551615 - mask) ||| (val &&& mask))
  else toInt64 (val &&& mask)

/-- getInt32: unsigned read then sign extension; a nonzero status is passed
through with the out-parameter unwritten. -/
def BinParser_getInt32 (s : BP) (bits : Nat) : BPRes Int :=
  match BinParser_getUInt32 s bits with
  | .oob => .oob
  | .ret 0 (some tmpVal) s1 => .ret 0 (some (castInt32 tmpVal bits)) s1
  | .ret status _ s1 => .ret status none s1

/-- getInt64: unsigned read then sign extension. -/
def BinParser_getInt64 (s : BP) (bits : Nat) : BPRes Int :=
  match BinParser_getUInt64 s bits with
  | .oob => .oob
  | .ret 0 (some tmpVal) s1 => .ret 0 (some (castInt64 tmpVal bits)) s1
  | .ret status _ s1 => .ret status none s1

/-- The byte-copy loop of BinParser_getBytes: val[i] = buf[posByte]. -/
def copyBytesLoop (buf : List Nat) : Nat → Nat → Option (List Nat)
  | 0, _ => some []
  | n + 1, posByte =>
    match buf.get? posByte with
    | none => none
    | some b =>
      match copyBytesLoop buf n (posByte + 1) with
      | none => none
      | some rest => some (b :: rest)

/-- BinParser_getBytes: requires byte alignment, checks capacity for whole
bytes, copies and advances.  Both failure returns are the literal status 1.
The loop counter posByte is a local unsigned int. -/
def BinParser_getBytes (s : BP) (bytes : Nat) : BPRes (List Nat) :=
  if isByteAligned s then
    if hasRest s.posByte s.posBit bytes 0 (bufLen s) then
      match copyBytesLoop s.buf bytes (s.posByte % 4294967296) with
      | none => .oob
      | some out =>
        let p := advancePos s.posByte s.posBit bytes 0
        .ret 0 (some out) { s with posByte := p.1, posBit := p.2 }
    else .ret 1 none s
  else .ret 1 none s

/-- Outcome of the two scanning loops inside getGlm: an out-of-bounds buffer
access, the loop body's own early error return (the re-check of the buffer
position that the enclosing guard makes unreachable), or normal loop exit
with the loop-carried values. -/
inductive GlmLoop where
  | oobAcc
  | errRet
  | done (a b c : Nat)
deriving DecidableEq

/-- The zero-counting loop of getGlm: while (posByte < bufLen) count zero bits
until a one bit is found.  The loop-local positions advance exactly one bit
per iteration. -/
def glmZerosLoop (buf : List Nat) (bufLen zeros posByte posBit : Nat) : GlmLoop :=
  if posByte < bufLen then
    if bufLen ≤ posByte then .errRet
    else
      match buf.get? posByte with
      | none => .oobAcc
      | some byte =>
        if (byte >>> (7 - posBit)) % 2 = 1 then .done zeros posByte posBit
        else glmZerosLoop buf bufLen (zeros + 1) (posByte + (posBit + 1) / 8) ((posBit + 1) % 8)
  else .done zeros posByte posBit
termination_by 9 * bufLen - (9 * posByte + min posBit 8)
decreasing_by
  simp_wf
  omega

/-- The suffix-reading loop of getGlm: for (i < zeros) && (posByte < bufLen),
accumulate one bit per iteration into the uint32 accumulator. -/
def glmSuffixLoop (buf : List Nat) (bufLen : Nat) : Nat → Nat → Nat → Nat → GlmLoop
  | 0, tmpVal, posByte, posBit => .done tmpVal posByte posBit
  | i + 1, tmpVal, posByte, posBit =>
    if posByte < bufLen then
      if bufLen ≤ posByte then .errRet
      else
        match buf.get? posByte with
        | none => .oobAcc
        | some byte =>
          glmSuffixLoop buf bufLen i ((tmpVal * 2 + (byte >>> (7 - posBit)) % 2) % 4294967296)
            (posByte + (posBit + 1) / 8) ((posBit + 1) % 8)
    else .done tmpVal posByte posBit

/-- getGlm: unsigned Exp-Golomb decode.  The locals posByte is unsigned int
(truncating the field at initialization).  After the zero scan the source
re-checks the position and fails (return 1) if the scan stopped at or past
the end; then it skips the terminating one bit, reads the suffix, and adds
(1 << zeros) - 1 (int arithmetic in the source, added into the uint32
accumulator: modelled as the value 2^zeros - 1 reduced modulo 2^32).  Only on
this success path are the object fields written back. -/
def BinParser_getGlm (s : BP) : BPRes Nat :=
  match glmZerosLoop s.buf (bufLen s) 0 (s.posByte % 4294967296) s.posBit with
  | .oobAcc => .oob
  | .errRet => .ret 1 none s
  | .done zeros p1 b1 =>
    if bufLen s ≤ p1 then .ret 1 none s
    else
      let p2 := p1 + (b1 + 1) / 8
      let b2 := (b1 + 1) % 8
      match glmSuffixLoop s.buf (bufLen s) zeros 0 p2 b2 with
      | .oobAcc => .oob
      | .errRet => .ret 1 none s
      | .done tmpVal p3 b3 =>
        .ret 0 (some ((tmpVal + (2 ^ zeros - 1)) % 4294967296)) { s with posByte := p3, posBit := b3 }

/-- getSGlm: signed Exp-Golomb decode.  (tmpVal >> 1) + 1 and -(tmpVal >> 1)
are uint32 expressions stored into an int32_t out-parameter. -/
def BinParser_getSGlm (s : BP) : BPRes Int :=
  match BinParser_getGlm s with
  | .oob => .oob
  | .ret 0 (some tmpVal) s1 =>
    if tmpVal % 2 = 1 then .ret 0 (some (toInt32 ((tmpVal >>> 1 + 1) % 4294967296))) s1
    else .ret 0 (some (toInt32 ((4294967296 - tmpVal >>> 1) % 4294967296))) s1
  | .ret status _ s1 => .ret status none s1

/-- alignByte: a no-op success when the position is not inside the buffer;
otherwise advance to the next byte boundary when not aligned.  posByte is
uint64_t. -/
def BinParser_alignByte (s : BP) : BPRes Unit :=
  if isInBuf s.posByte (bufLen s) then
    if s.posBit ≠ 0 then
      .ret 0 none { s with posByte := (s.posByte + 1) % 18446744073709551616, posBit := 0 }
    else .ret 0 none s
  else .ret 0 none s

/-- alignBytes: fail on bytes == 0; no-op success when the position is not
inside the buffer; no-op success when already aligned; otherwise move to
alignedByte = posByte - rem + bytes (an unsigned int local, hence the
reduction modulo 2^32) when it is inside the buffer and fail otherwise. -/
def BinParser_alignBytes (s : BP) (bytes : Nat) : BPRes Unit :=
  if bytes = 0 then .ret 1 none s
  else if isInBuf s.posByte (bufLen s) then
    let rem := s.posByte % bytes
    if rem = 0 ∧ s.posBit = 0 then .ret 0 none s
    else
      let alignedByte := (s.posByte - rem + bytes) % 4294967296
      if isInBuf alignedByte (bufLen s) then
        .ret 0 none { s with posByte := alignedByte, posBit := 0 }
      else .ret 1 none s
  else .ret 0 none s

/-- seek_: only the byte component is checked against the buffer; the bit
component is stored unchecked. -/
def seek_ (s : BP) (posByte posBit : Nat) : BPRes Unit :=
  if isInBuf posByte (bufLen s) then .ret 0 none { s with posByte := posByte, posBit := posBit }
  else .ret 1 none s

/-- BinParser_seek. -/
def BinParser_seek (s : BP) (posByte posBit : Nat) : BPRes Unit :=
  seek_ s posByte posBit

/-- BinParser_skip: the next position is computed in unsigned int arithmetic
and delegated to seek_. -/
def BinParser_skip (s : BP) (bytes bits : Nat) : BPRes Unit :=
  let nextPosByte := (s.posByte + bytes + ((s.posBit + bits) % 4294967296) / 8) % 4294967296
  let nextPosBit := ((s.posBit + bits) % 4294967296) % 8
  seek_ s nextPosByte nextPosBit

/-- BinParser_reset: install a new buffer and reset the cursor to (0, 0). -/
def BinParser_reset (_s : BP) (buf : List Nat) : BPRes Unit :=
  .ret 0 none { buf := buf, posByte := 0, posBit := 0 }

/-- BinParser_hasRest: public capacity query at the current position. -/
def BinParser_hasRest (s : BP) (bytes bits : Nat) : Bool :=
  hasRest s.posByte s.posBit bytes bits (bufLen s)

/-- The cursor invariant from the specification: bitPos in [0,8), and
bytePos < length or bytePos == length with bitPos == 0. -/
def CursorInv (s : BP) : Prop :=
  s.posBit < 8 ∧ (s.posByte < bufLen s ∨ (s.posByte = bufLen s ∧ s.posBit = 0))

instance (s : BP) : Decidable (CursorInv s) := by
  unfold CursorInv
  exact inferInstance

/-- Bit i of the buffer, MSB-first within each byte. -/
def bitAt (buf : List Nat) (i : Nat) : Nat :=
  ((buf.getD (i / 8) 0) >>> (7 - i % 8)) % 2

/-- The value of the n bits of the buffer starting at bit position pos, read
most-significant-bit-first. -/
def bitsBE (buf : List Nat) (pos : Nat) : Nat → Nat
  | 0 => 0
  | n + 1 => bitsBE buf pos n * 2 + bitAt buf (pos + n)

/-- The cursor as an absolute bit position. -/
def absPos (s : BP) : Nat := 8 * s.posByte + s.posBit

/- Basic facts about the capacity check and the advance macro, valid as long
as the 32-bit intermediate arithmetic does not wrap. -/

theorem hasRest_iff (p b bytes bits L : Nat) (hbb : b + bits < 4294967296)
    (hnb : p + bytes + (b + bits) / 8 < 4294967296) :
    hasRest p b bytes bits L = true ↔ 8 * (p + bytes) + (b + bits) ≤ 8 * L := by
  unfold hasRest
  simp only [Nat.mod_eq_of_lt hbb, Nat.mod_eq_of_lt hnb]
  split_ifs with h1 h2
  · simp only [true_iff]
    omega
  · simp only [true_iff]
    omega
  · simp only [Bool.false_eq_true, false_iff]
    omega

theorem advancePos_eq (p b bytes bits : Nat) (hbb : b + bits < 4294967296)
    (hnb : p + bytes + (b + bits) / 8 < 18446744073709551616) :
    advancePos p b bytes bits = (p + bytes + (b + bits) / 8, (b + bits) % 8) := by
  unfold advancePos
  simp only [Nat.mod_eq_of_lt hbb, Nat.mod_eq_of_lt hnb]

/- Bit-level reading: bitAt / bitsBE facts. -/

theorem bitAt_lt_two (buf : List Nat) (i : Nat) : bitAt buf i < 2 :=
  Nat.mod_lt _ (by omega)

theorem bitsBE_lt (buf : List Nat) (pos : Nat) : ∀ n, bitsBE buf pos n < 2 ^ n := by
  intro n
  induction n with
  | zero => simp [bitsBE]
  | succ n ih =>
    have h := bitAt_lt_two buf (pos + n)
    simp only [bitsBE]
    have : 2 ^ (n + 1) = 2 ^ n * 2 := by ring
    omega

theorem bitsBE_cons (buf : List Nat) (pos : Nat) :
    ∀ n, bitsBE buf pos (n + 1) = bitAt buf pos * 2 ^ n + bitsBE buf (pos + 1) n := by
  intro n
  induction n with
  | zero => simp [bitsBE]
  | succ n ih =>
    calc bitsBE buf pos (n + 1 + 1)
        = bitsBE buf pos (n + 1) * 2 + bitAt buf (pos + (n + 1)) := rfl
      _ = (bitAt buf pos * 2 ^ n + bitsBE buf (pos + 1) n) * 2 + bitAt buf (pos + (n + 1)) := by
          rw [ih]
      _ = bitAt buf pos * 2 ^ (n + 1) + (bitsBE buf (pos + 1) n * 2 + bitAt buf (pos + 1 + n)) := by
          ring_nf
      _ = bitAt buf pos * 2 ^ (n + 1) + bitsBE buf (pos + 1) (n + 1) := rfl

theorem bitAt_of_get (buf : List Nat) (p b byte : Nat) (hb : b < 8)
    (hbyte : buf.get? p = some byte) :
    bitAt buf (8 * p + b) = (byte >>> (7 - b)) % 2 := by
  unfold bitAt
  have h1 : (8 * p + b) / 8 = p := by omega
  have h2 : (8 * p + b) % 8 = b := by omega
  rw [h1, h2]
  have : buf.getD p 0 = byte := by
    rw [List.getD_eq_getElem?_getD, ← List.get?_eq_getElem?, hbyte]
    rfl
  rw [this]

/- The shared bit-accumulation loop computes the MSB-first value of the next
n bits, modulo 2^32, and ends exactly n bits further on. -/

theorem readBitsLoop_spec (buf : List Nat) :
    ∀ n acc p b, b < 8 → acc < 4294967296 → 8 * p + b + n ≤ 8 * buf.length →
      readBitsLoop buf n acc p b =
        some ((acc * 2 ^ n + bitsBE buf (8 * p + b) n) % 4294967296,
          (8 * p + b + n) / 8, (8 * p + b + n) % 8) := by
  intro n
  induction n with
  | zero =>
    intro acc p b hb hacc _
    simp only [readBitsLoop, bitsBE, pow_zero, mul_one, Nat.add_zero]
    rw [Nat.mod_eq_of_lt hacc]
    have h1 : (8 * p + b) / 8 = p := by omega
    have h2 : (8 * p + b) % 8 = b := by omega
    rw [h1, h2]
  | succ n ih =>
    intro acc p b hb hacc hcap
    have hp : p < buf.length := by omega
    obtain ⟨byte, hbyte⟩ : ∃ byte, buf.get? p = some byte := by
      rw [List.get?_eq_getElem?]
      exact ⟨buf[p], List.getElem?_eq_getElem hp⟩
    simp only [readBitsLoop, hbyte]
    have hb8 : (b + 1) % 8 < 8 := Nat.mod_lt _ (by omega)
    have hpos : 8 * (p + (b + 1) / 8) + (b + 1) % 8 = 8 * p + b + 1 := by omega
    rw [ih ((acc * 2 + (byte >>> (7 - b)) % 2) % 4294967296) (p + (b + 1) / 8) ((b + 1) % 8)
      hb8 (Nat.mod_lt _ (by omega)) (by omega)]
    rw [hpos]
    have e1 : 8 * p + b + 1 + n = 8 * p + b + (n + 1) := by omega
    rw [e1]
    have hbit : bitAt buf (8 * p + b) = (byte >>> (7 - b)) % 2 := bitAt_of_get buf p b byte hb hbyte
    have hbe : bitsBE buf (8 * p + b) (n + 1)
        = (byte >>> (7 - b)) % 2 * 2 ^ n + bitsBE buf (8 * p + b + 1) n := by
      rw [bitsBE_cons buf (8 * p + b) n, hbit]
    rw [hbe]
    have harith : (acc * 2 + (byte >>> (7 - b)) % 2) * 2 ^ n + bitsBE buf (8 * p + b + 1) n
        = acc * 2 ^ (n + 1) + ((byte >>> (7 - b)) % 2 * 2 ^ n + bitsBE buf (8 * p + b + 1) n) := by
      ring
    have hval : ((acc * 2 + (byte >>> (7 - b)) % 2) % 4294967296 * 2 ^ n
          + bitsBE buf (8 * p + b + 1) n) % 4294967296
        = (acc * 2 ^ (n + 1) + ((byte >>> (7 - b)) % 2 * 2 ^ n
          + bitsBE buf (8 * p + b + 1) n)) % 4294967296 := by
      rw [← harith]
      exact Nat.ModEq.add_right _ (Nat.ModEq.mul_right _ (Nat.mod_modEq _ _))
    rw [hval]

/- getUInt32 characterization: on a state satisfying the cursor invariant,
with sizes small enough that the 32-bit capacity arithmetic is exact, a read
of 1 <= bits bits that fits in the buffer succeeds, returns the next bits
bits MSB-first (reduced modulo 2^32 by the uint32 accumulator), and advances
the cursor by exactly bits bits. -/

theorem getUInt32_spec (s : BP) (bits : Nat) (hInv : CursorInv s) (h1 : 1 ≤ bits)
    (hL : bufLen s ≤ 268435456) (hbits : bits ≤ 268435456)
    (hcap : absPos s + bits ≤ 8 * bufLen s) :
    BinParser_getUInt32 s bits =
      .ret 0 (some (bitsBE s.buf (absPos s) bits % 4294967296))
        ⟨s.buf, (absPos s + bits) / 8, (absPos s + bits) % 8⟩ := by
  obtain ⟨hb, hpos⟩ := hInv
  have hposL : s.posByte ≤ s.buf.length := by
    rcases hpos with h | ⟨h, _⟩
    · exact Nat.le_of_lt h
    · exact Nat.le_of_eq h
  have hLen : bufLen s = s.buf.length := rfl
  rw [hLen] at hL hcap
  have hmod : s.posByte % 4294967296 = s.posByte := Nat.mod_eq_of_lt (by omega)
  have habs : absPos s = 8 * s.posByte + s.posBit := rfl
  have htrue : hasRest s.posByte s.posBit 0 bits (bufLen s) = true := by
    rw [hasRest_iff s.posByte s.posBit 0 bits (bufLen s) (by omega) (by omega), hLen]
    omega
  unfold BinParser_getUInt32
  rw [if_neg (by omega), if_pos htrue, hmod]
  rw [readBitsLoop_spec s.buf bits 0 s.posByte s.posBit hb (by norm_num) (by omega)]
  rw [advancePos_eq s.posByte s.posBit 0 bits (by omega) (by omega)]
  simp only [Nat.zero_mul, Nat.zero_add, habs]
  congr 1
  simp only [BP.mk.injEq, true_and]
  omega

/-- getUInt64 has, in the source, exactly the same body as getUInt32
(including the uint32 accumulator). -/
theorem getUInt64_eq_getUInt32 : ∀ s bits, BinParser_getUInt64 s bits = BinParser_getUInt32 s bits :=
  fun _ _ => rfl

/-- The characteristic fact for C1 and C8: an unsigned read of at most 32
bits returns the exact MSB-first value of those bits (no truncation). -/
theorem getUInt32_spec_le32 (s : BP) (bits : Nat) (hInv : CursorInv s) (h1 : 1 ≤ bits)
    (hL : bufLen s ≤ 268435456) (hbits : bits ≤ 32)
    (hcap : absPos s + bits ≤ 8 * bufLen s) :
    BinParser_getUInt32 s bits =
      .ret 0 (some (bitsBE s.buf (absPos s) bits))
        ⟨s.buf, (absPos s + bits) / 8, (absPos s + bits) % 8⟩ := by
  have h := getUInt32_spec s bits hInv h1 hL (by omega) hcap
  have hlt : bitsBE s.buf (absPos s) bits < 4294967296 := by
    have h1 := bitsBE_lt s.buf (absPos s) bits
    have h2 : (2 : Nat) ^ bits ≤ 2 ^ 32 := Nat.pow_le_pow_right (by norm_num) hbits
    omega
  rwa [Nat.mod_eq_of_lt hlt] at h

/-- C1: the claim says BinParser_getUInt64 returns, for every width in
[1,64], the next bits bits of the buffer MSB-first as an unsigned 64-bit
value.  The source declares the accumulator of getUInt64 as uint32_t, so a
33-bit read of the buffer 80 00 00 00 00 — whose 33 bits MSB-first have the
value 2^32 — succeeds but returns 0: the function contradicts its own
documented uint64 contract for widths above 32. -/
theorem c1_getUInt64_truncates_wide_reads :
    BinParser_getUInt64 ⟨[128, 0, 0, 0, 0], 0, 0⟩ 33
      = .ret 0 (some 0) ⟨[128, 0, 0, 0, 0], 4, 1⟩
    ∧ bitsBE [128, 0, 0, 0, 0] 0 33 = 4294967296 :=
  ⟨by decide, by decide⟩

/-- castInt32 is exactly two's-complement reinterpretation of the low w bits:
for 1 <= w <= 32 and u < 2^w it returns u when the sign bit is clear and
u - 2^w when the sign bit is set. -/
theorem castInt32_spec (u w : Nat) (hw1 : 1 ≤ w) (hw2 : w ≤ 32) (hu : u < 2 ^ w) :
    castInt32 u w = if u < 2 ^ (w - 1) then (u : Int) else (u : Int) - 2 ^ w := by
  have hpow : (2 : Nat) ^ w ≤ 2 ^ 32 := Nat.pow_le_pow_right (by norm_num) hw2
  have hww : (2 : Nat) ^ w = 2 ^ (w - 1) * 2 := by
    conv_lhs => rw [show w = (w - 1) + 1 by omega]
    rw [pow_succ]
  have hmask : ((2 : Nat) ^ w - 1) % 4294967296 = 2 ^ w - 1 :=
    Nat.mod_eq_of_lt (by omega)
  have hand : u &&& (2 ^ w - 1) = u := by
    rw [Nat.and_pow_two_sub_one_eq_mod]
    exact Nat.mod_eq_of_lt hu
  have hsh : u >>> (w - 1) = u / 2 ^ (w - 1) := Nat.shiftRight_eq_div_pow u (w - 1)
  have hdiv : u / 2 ^ (w - 1) % 2 = 1 ↔ ¬ u < 2 ^ (w - 1) := by
    have hA : (0 : Nat) < 2 ^ (w - 1) := Nat.pos_pow_of_pos _ (by norm_num)
    constructor
    · intro h hlt
      rw [Nat.div_eq_of_lt hlt] at h
      simp at h
    · intro h
      have h1 : 2 ^ (w - 1) ≤ u := Nat.le_of_not_lt h
      have h2 : u / 2 ^ (w - 1) = 1 := by
        have hlt2 : u < 2 * 2 ^ (w - 1) := by omega
        have hge : 1 ≤ u / 2 ^ (w - 1) := (Nat.one_le_div_iff hA).mpr h1
        have hlt3 : u / 2 ^ (w - 1) < 2 := (Nat.div_lt_iff_lt_mul hA).mpr hlt2
        omega
      rw [h2]
  unfold castInt32
  simp only [hmask, hand, hsh]
  by_cases hc : u < 2 ^ (w - 1)
  · rw [if_neg (by rw [hdiv]; exact fun h => h hc), if_pos hc]
    unfold toInt32
    rw [Nat.mod_eq_of_lt (by omega)]
    rw [if_pos (by omega)]
  · rw [if_pos (hdiv.mpr hc), if_neg hc]
    have hor : (4294967295 - (2 ^ w - 1)) ||| u = 4294967296 - 2 ^ w + u := by
      have hq : (2 : Nat) ^ w * 2 ^ (32 - w) = 2 ^ 32 := by
        rw [← pow_add]
        congr 1
        omega
      have hd : (1 : Nat) ≤ 2 ^ w := Nat.one_le_two_pow
      have h2 : 4294967295 - (2 ^ w - 1) = 2 ^ w * (2 ^ (32 - w) - 1) := by
        rw [Nat.mul_sub_one, hq]
        omega
      rw [h2, ← Nat.mul_add_lt_is_or hu (2 ^ (32 - w) - 1), Nat.mul_sub_one, hq]
      omega
    rw [hor]
    unfold toInt32
    rw [Nat.mod_eq_of_lt (by omega)]
    rw [if_neg (by omega)]
    have h3 : ((2 ^ w : Nat) : Int) = (2 : Int) ^ w := by
      push_cast
      ring
    rw [← h3]
    omega

/-- C8: for every width w in [1,32] and every reader with at least w bits
remaining (under the cursor invariant, sizes small enough for exact 32-bit
arithmetic), the unsigned 32-bit read and the signed 32-bit read of the same
w bits both succeed, reach the same final state, and the unsigned value is
the two's-complement representation of the signed value truncated to its low
w bits. -/
theorem c8_unsigned_is_signed_two_complement (s : BP) (w : Nat) (hInv : CursorInv s)
    (hL : bufLen s ≤ 268435456) (hw1 : 1 ≤ w) (hw2 : w ≤ 32)
    (hcap : absPos s + w ≤ 8 * bufLen s) :
    ∃ u z s2, BinParser_getUInt32 s w = .ret 0 (some u) s2
      ∧ BinParser_getInt32 s w = .ret 0 (some z) s2
      ∧ z % ((2 : Int) ^ w) = (u : Int) := by
  have hu32 := getUInt32_spec_le32 s w hInv hw1 hL hw2 hcap
  set u := bitsBE s.buf (absPos s) w with hudef
  have hult : u < 2 ^ w := bitsBE_lt s.buf (absPos s) w
  refine ⟨u, castInt32 u w, _, hu32, ?_, ?_⟩
  · unfold BinParser_getInt32
    rw [hu32]
  · rw [castInt32_spec u w hw1 hw2 hult]
    have h3 : ((2 ^ w : Nat) : Int) = (2 : Int) ^ w := by
      push_cast
      ring
    by_cases hc : u < 2 ^ (w - 1)
    · rw [if_pos hc, ← h3]
      exact Int.emod_eq_of_lt (by omega) (by omega)
    · rw [if_neg hc, ← h3]
      have hrw : (u : Int) - ((2 ^ w : Nat) : Int) = u + ((2 ^ w : Nat) : Int) * (-1) := by ring
      rw [hrw, Int.add_mul_emod_self_left]
      exact Int.emod_eq_of_lt (by omega) (by omega)

/-- Witness for C8 at the one-byte buffer B4 with w = 3. -/
theorem c8_unsigned_is_signed_two_complement_witness :
    ∃ u z s2, BinParser_getUInt32 ⟨[180], 0, 0⟩ 3 = .ret 0 (some u) s2
      ∧ BinParser_getInt32 ⟨[180], 0, 0⟩ 3 = .ret 0 (some z) s2
      ∧ z % ((2 : Int) ^ 3) = (u : Int) :=
  c8_unsigned_is_signed_two_complement ⟨[180], 0, 0⟩ 3 (by decide) (by decide)
    (by decide) (by decide) (by decide)

/- Characterization of the two scanning loops of getGlm.  Both loops only
touch the buffer under their posByte < bufLen guard, so the out-of-bounds
and the dead re-check branches are unreachable; positions advance exactly
one bit per iteration. -/

theorem glmZerosLoop_done (buf : List Nat) (L : Nat) (hLb : L ≤ buf.length) :
    ∀ μ z p b, 9 * L - (9 * p + min b 8) ≤ μ → b < 8 → p ≤ L → (p = L → b = 0) →
      ∃ z2 p2 b2, glmZerosLoop buf L z p b = .done z2 p2 b2
        ∧ b2 < 8 ∧ p2 ≤ L ∧ (p2 = L → b2 = 0) := by
  intro μ
  induction μ with
  | zero =>
    intro z p b hμ hb hpL hpb
    have hp : ¬ p < L := by omega
    refine ⟨z, p, b, ?_, hb, hpL, hpb⟩
    rw [glmZerosLoop, if_neg hp]
  | succ μ ih =>
    intro z p b hμ hb hpL hpb
    by_cases hp : p < L
    · have hpbuf : p < buf.length := by omega
      obtain ⟨byte, hbyte⟩ : ∃ byte, buf.get? p = some byte := by
        rw [List.get?_eq_getElem?]
        exact ⟨buf[p], List.getElem?_eq_getElem hpbuf⟩
      rw [glmZerosLoop, if_pos hp, if_neg (by omega), hbyte]
      simp only []
      by_cases hbit : (byte >>> (7 - b)) % 2 = 1
      · rw [if_pos hbit]
        exact ⟨z, p, b, rfl, hb, hpL, hpb⟩
      · rw [if_neg hbit]
        exact ih (z + 1) (p + (b + 1) / 8) ((b + 1) % 8) (by omega) (by omega) (by omega) (by omega)
    · refine ⟨z, p, b, ?_, hb, hpL, hpb⟩
      rw [glmZerosLoop, if_neg hp]

theorem glmZerosLoop_spec (buf : List Nat) (L : Nat) (hLb : L ≤ buf.length) :
    ∀ count z p b, b < 8 →
      (∀ j, j < count → bitAt buf (8 * p + b + j) = 0) →
      bitAt buf (8 * p + b + count) = 1 →
      8 * p + b + count < 8 * L →
      glmZerosLoop buf L z p b
        = .done (z + count) ((8 * p + b + count) / 8) ((8 * p + b + count) % 8) := by
  intro count
  induction count with
  | zero =>
    intro z p b hb hzeros hone hterm
    have hp : p < L := by omega
    have hpbuf : p < buf.length := by omega
    obtain ⟨byte, hbyte⟩ : ∃ byte, buf.get? p = some byte := by
      rw [List.get?_eq_getElem?]
      exact ⟨buf[p], List.getElem?_eq_getElem hpbuf⟩
    have hbit : (byte >>> (7 - b)) % 2 = 1 := by
      have h := bitAt_of_get buf p b byte hb hbyte
      simp only [Nat.add_zero] at hone
      omega
    rw [glmZerosLoop, if_pos hp, if_neg (by omega), hbyte]
    simp only []
    rw [if_pos hbit]
    have h1 : (8 * p + b + 0) / 8 = p := by omega
    have h2 : (8 * p + b + 0) % 8 = b := by omega
    rw [h1, h2, Nat.add_zero]
  | succ count ih =>
    intro z p b hb hzeros hone hterm
    have hp : p < L := by omega
    have hpbuf : p < buf.length := by omega
    obtain ⟨byte, hbyte⟩ : ∃ byte, buf.get? p = some byte := by
      rw [List.get?_eq_getElem?]
      exact ⟨buf[p], List.getElem?_eq_getElem hpbuf⟩
    have hbit : ¬ (byte >>> (7 - b)) % 2 = 1 := by
      have h := bitAt_of_get buf p b byte hb hbyte
      have h0 := hzeros 0 (by omega)
      simp only [Nat.add_zero] at h0
      omega
    rw [glmZerosLoop, if_pos hp, if_neg (by omega), hbyte]
    simp only []
    rw [if_neg hbit]
    have hpos : 8 * (p + (b + 1) / 8) + (b + 1) % 8 = 8 * p + b + 1 := by omega
    have hres := ih (z + 1) (p + (b + 1) / 8) ((b + 1) % 8) (by omega)
      (by
        intro j hj
        rw [hpos, show 8 * p + b + 1 + j = 8 * p + b + (j + 1) by omega]
        exact hzeros (j + 1) (by omega))
      (by
        rw [hpos, show 8 * p + b + 1 + count = 8 * p + b + (count + 1) by omega]
        exact hone)
      (by omega)
    rw [hres, hpos]
    have e : 8 * p + b + 1 + count = 8 * p + b + (count + 1) := by omega
    rw [e, show z + 1 + count = z + (count + 1) by omega]

theorem glmSuffixLoop_done (buf : List Nat) (L : Nat) (hLb : L ≤ buf.length) :
    ∀ n tmp p b, b < 8 → p ≤ L → (p = L → b = 0) →
      ∃ t2 p2 b2, glmSuffixLoop buf L n tmp p b = .done t2 p2 b2
        ∧ b2 < 8 ∧ p2 ≤ L ∧ (p2 = L → b2 = 0) := by
  intro n
  induction n with
  | zero =>
    intro tmp p b hb hpL hpb
    exact ⟨tmp, p, b, rfl, hb, hpL, hpb⟩
  | succ n ih =>
    intro tmp p b hb hpL hpb
    by_cases hp : p < L
    · have hpbuf : p < buf.length := by omega
      obtain ⟨byte, hbyte⟩ : ∃ byte, buf.get? p = some byte := by
        rw [List.get?_eq_getElem?]
        exact ⟨buf[p], List.getElem?_eq_getElem hpbuf⟩
      rw [glmSuffixLoop, if_pos hp, if_neg (by omega), hbyte]
      simp only []
      exact ih _ (p + (b + 1) / 8) ((b + 1) % 8) (by omega) (by omega) (by omega)
    · refine ⟨tmp, p, b, ?_, hb, hpL, hpb⟩
      rw [glmSuffixLoop, if_neg hp]

theorem glmSuffixLoop_spec (buf : List Nat) (L : Nat) (hLb : L ≤ buf.length) :
    ∀ n tmp p b, b < 8 → tmp < 4294967296 → 8 * p + b ≤ 8 * L →
      glmSuffixLoop buf L n tmp p b
        = .done ((tmp * 2 ^ min n (8 * L - (8 * p + b))
              + bitsBE buf (8 * p + b) (min n (8 * L - (8 * p + b)))) % 4294967296)
            ((8 * p + b + min n (8 * L - (8 * p + b))) / 8)
            ((8 * p + b + min n (8 * L - (8 * p + b))) % 8) := by
  intro n
  induction n with
  | zero =>
    intro tmp p b hb htmp hle
    have hk : min 0 (8 * L - (8 * p + b)) = 0 := by omega
    rw [hk]
    simp only [glmSuffixLoop, bitsBE, pow_zero, mul_one, Nat.add_zero]
    rw [Nat.mod_eq_of_lt htmp]
    have h1 : (8 * p + b) / 8 = p := by omega
    have h2 : (8 * p + b) % 8 = b := by omega
    rw [h1, h2]
  | succ n ih =>
    intro tmp p b hb htmp hle
    by_cases hp : p < L
    · have hpbuf : p < buf.length := by omega
      obtain ⟨byte, hbyte⟩ : ∃ byte, buf.get? p = some byte := by
        rw [List.get?_eq_getElem?]
        exact ⟨buf[p], List.getElem?_eq_getElem hpbuf⟩
      rw [glmSuffixLoop, if_pos hp, if_neg (by omega), hbyte]
      simp only []
      have hpos : 8 * (p + (b + 1) / 8) + (b + 1) % 8 = 8 * p + b + 1 := by omega
      rw [ih ((tmp * 2 + (byte >>> (7 - b)) % 2) % 4294967296) (p + (b + 1) / 8) ((b + 1) % 8)
        (by omega) (Nat.mod_lt _ (by omega)) (by omega)]
      rw [hpos]
      have hk : min n (8 * L - (8 * p + b + 1)) + 1 = min (n + 1) (8 * L - (8 * p + b)) := by
        omega
      set k := min n (8 * L - (8 * p + b + 1)) with hkdef
      have e1 : 8 * p + b + 1 + k = 8 * p + b + (k + 1) := by omega
      rw [e1, hk]
      have hbit : bitAt buf (8 * p + b) = (byte >>> (7 - b)) % 2 := bitAt_of_get buf p b byte hb hbyte
      have hbe : bitsBE buf (8 * p + b) (k + 1)
          = (byte >>> (7 - b)) % 2 * 2 ^ k + bitsBE buf (8 * p + b + 1) k := by
        rw [bitsBE_cons buf (8 * p + b) k, hbit]
      have harith : (tmp * 2 + (byte >>> (7 - b)) % 2) * 2 ^ k + bitsBE buf (8 * p + b + 1) k
          = tmp * 2 ^ (k + 1) + ((byte >>> (7 - b)) % 2 * 2 ^ k + bitsBE buf (8 * p + b + 1) k) := by
        ring
      have hval : ((tmp * 2 + (byte >>> (7 - b)) % 2) % 4294967296 * 2 ^ k
            + bitsBE buf (8 * p + b + 1) k) % 4294967296
          = (tmp * 2 ^ (k + 1) + bitsBE buf (8 * p + b) (k + 1)) % 4294967296 := by
        rw [hbe, ← harith]
        exact Nat.ModEq.add_right _ (Nat.ModEq.mul_right _ (Nat.mod_modEq _ _))
      rw [hval, ← hk]
    · have hL8 : 8 * L ≤ 8 * p + b := by omega
      have hb0 : b = 0 := by omega
      have hk : min (n + 1) (8 * L - (8 * p + b)) = 0 := by omega
      rw [glmSuffixLoop, if_neg hp, hk]
      simp only [bitsBE, pow_zero, mul_one, Nat.add_zero]
      rw [Nat.mod_eq_of_lt htmp]
      have h1 : (8 * p + b) / 8 = p := by omega
      have h2 : (8 * p + b) % 8 = b := by omega
      rw [h1, h2]

/- Master characterization of getGlm: if the buffer holds zeros 0-bits and
then a 1-bit at the cursor (all within the buffer), the decode succeeds,
reads k = min zeros (bits remaining after the terminator) suffix bits, and
returns bitsBE(suffix bits) + 2^zeros - 1 (modulo 2^32), leaving the cursor
just after the last bit consumed. -/

theorem getGlm_spec (s : BP) (zeros : Nat) (hInv : CursorInv s) (hL : bufLen s ≤ 268435456)
    (hzeros : ∀ j, j < zeros → bitAt s.buf (absPos s + j) = 0)
    (hone : bitAt s.buf (absPos s + zeros) = 1)
    (hterm : absPos s + zeros < 8 * bufLen s) :
    BinParser_getGlm s =
      .ret 0 (some ((bitsBE s.buf (absPos s + zeros + 1)
            (min zeros (8 * bufLen s - (absPos s + zeros + 1)))
          + (2 ^ zeros - 1)) % 4294967296))
        ⟨s.buf, (absPos s + zeros + 1 + min zeros (8 * bufLen s - (absPos s + zeros + 1))) / 8,
          (absPos s + zeros + 1 + min zeros (8 * bufLen s - (absPos s + zeros + 1))) % 8⟩ := by
  obtain ⟨hb, hpos⟩ := hInv
  have hLen : bufLen s = s.buf.length := rfl
  have hposL : s.posByte ≤ s.buf.length := by
    rcases hpos with h | ⟨h, _⟩
    · exact Nat.le_of_lt h
    · exact Nat.le_of_eq h
  have hmod : s.posByte % 4294967296 = s.posByte := Nat.mod_eq_of_lt (by omega)
  have habs : absPos s = 8 * s.posByte + s.posBit := rfl
  unfold BinParser_getGlm
  rw [hmod]
  rw [glmZerosLoop_spec s.buf (bufLen s) (le_of_eq hLen.symm) zeros 0 s.posByte s.posBit hb
    (by rw [← habs]; exact hzeros) (by rw [← habs]; exact hone) (by omega)]
  simp only [Nat.zero_add]
  rw [if_neg (by omega)]
  have hpos2 : 8 * ((8 * s.posByte + s.posBit + zeros) / 8
        + ((8 * s.posByte + s.posBit + zeros) % 8 + 1) / 8)
      + ((8 * s.posByte + s.posBit + zeros) % 8 + 1) % 8
      = absPos s + zeros + 1 := by
    rw [habs]
    omega
  rw [glmSuffixLoop_spec s.buf (bufLen s) (le_of_eq hLen.symm) zeros 0
    ((8 * s.posByte + s.posBit + zeros) / 8 + ((8 * s.posByte + s.posBit + zeros) % 8 + 1) / 8)
    (((8 * s.posByte + s.posBit + zeros) % 8 + 1) % 8) (by omega) (by norm_num)
    (by rw [hpos2]; omega)]
  rw [hpos2]
  simp only []
  have hval : ((0 * 2 ^ min zeros (8 * bufLen s - (absPos s + zeros + 1))
        + bitsBE s.buf (absPos s + zeros + 1)
          (min zeros (8 * bufLen s - (absPos s + zeros + 1)))) % 4294967296
      + (2 ^ zeros - 1)) % 4294967296
      = (bitsBE s.buf (absPos s + zeros + 1)
          (min zeros (8 * bufLen s - (absPos s + zeros + 1)))
        + (2 ^ zeros - 1)) % 4294967296 := by
    rw [Nat.zero_mul, Nat.zero_add]
    exact Nat.ModEq.add_right _ (Nat.mod_modEq _ _)
  rw [hval]

/-- C5: for every value whose Exp-Golomb code (zeros 0-bits, a 1-bit, then
zeros suffix bits valued suffix, so that v = suffix + 2^zeros - 1) lies fully
inside the buffer at the cursor, getGlm returns exactly v and advances the
cursor just past the code (2*zeros + 1 bits).  zeros <= 31 keeps the uint32
accumulator exact. -/
theorem c5_glm_roundtrip (s : BP) (zeros suffix : Nat) (hInv : CursorInv s)
    (hL : bufLen s ≤ 268435456) (hz : zeros ≤ 31) (hsuf : suffix < 2 ^ zeros)
    (hzeros : ∀ j, j < zeros → bitAt s.buf (absPos s + j) = 0)
    (hone : bitAt s.buf (absPos s + zeros) = 1)
    (hsufbits : bitsBE s.buf (absPos s + zeros + 1) zeros = suffix)
    (hfit : absPos s + 2 * zeros + 1 ≤ 8 * bufLen s) :
    BinParser_getGlm s = .ret 0 (some (suffix + (2 ^ zeros - 1)))
      ⟨s.buf, (absPos s + 2 * zeros + 1) / 8, (absPos s + 2 * zeros + 1) % 8⟩ := by
  have h := getGlm_spec s zeros hInv hL hzeros hone (by omega)
  have hk : min zeros (8 * bufLen s - (absPos s + zeros + 1)) = zeros := by omega
  rw [hk, hsufbits] at h
  have h31 : (2 : Nat) ^ zeros ≤ 2 ^ 31 := Nat.pow_le_pow_right (by norm_num) hz
  rw [Nat.mod_eq_of_lt (by omega)] at h
  have e : absPos s + zeros + 1 + zeros = absPos s + 2 * zeros + 1 := by omega
  rw [e] at h
  exact h

/-- Witness for C5: buffer 28 (bits 00101...), the code 00101 decodes to 4
and leaves the cursor at bit 5. -/
theorem c5_glm_roundtrip_witness :
    BinParser_getGlm ⟨[40], 0, 0⟩ = .ret 0 (some (1 + (2 ^ 2 - 1)))
      ⟨[40], (absPos ⟨[40], 0, 0⟩ + 2 * 2 + 1) / 8, (absPos ⟨[40], 0, 0⟩ + 2 * 2 + 1) % 8⟩ :=
  c5_glm_roundtrip ⟨[40], 0, 0⟩ 2 1 (by decide) (by decide) (by decide) (by decide)
    (by decide) (by decide) (by decide) (by decide)

/-- C6: if the prefix and the terminating 1-bit are inside the buffer but the
buffer ends partway through the suffix, getGlm still succeeds: the bits
actually available are read, the value is their MSB-first value plus
2^zeros - 1, and the cursor is left at the end of the buffer. -/
theorem c6_glm_suffix_truncated (s : BP) (zeros : Nat) (hInv : CursorInv s)
    (hL : bufLen s ≤ 268435456) (hz : zeros ≤ 31)
    (hzeros : ∀ j, j < zeros → bitAt s.buf (absPos s + j) = 0)
    (hone : bitAt s.buf (absPos s + zeros) = 1)
    (hterm : absPos s + zeros < 8 * bufLen s)
    (hshort : 8 * bufLen s < absPos s + 2 * zeros + 1) :
    BinParser_getGlm s = .ret 0 (some (bitsBE s.buf (absPos s + zeros + 1)
        (8 * bufLen s - (absPos s + zeros + 1)) + (2 ^ zeros - 1)))
      ⟨s.buf, bufLen s, 0⟩ := by
  have h := getGlm_spec s zeros hInv hL hzeros hone hterm
  have hk : min zeros (8 * bufLen s - (absPos s + zeros + 1))
      = 8 * bufLen s - (absPos s + zeros + 1) := by omega
  rw [hk] at h
  have hlt := bitsBE_lt s.buf (absPos s + zeros + 1) (8 * bufLen s - (absPos s + zeros + 1))
  have hple : (2 : Nat) ^ (8 * bufLen s - (absPos s + zeros + 1)) ≤ 2 ^ 31 :=
    Nat.pow_le_pow_right (by norm_num) (by omega)
  have h31 : (2 : Nat) ^ zeros ≤ 2 ^ 31 := Nat.pow_le_pow_right (by norm_num) hz
  rw [Nat.mod_eq_of_lt (by omega)] at h
  have e : absPos s + zeros + 1 + (8 * bufLen s - (absPos s + zeros + 1)) = 8 * bufLen s := by
    omega
  rw [e] at h
  have e2 : 8 * bufLen s / 8 = bufLen s := by omega
  have e3 : 8 * bufLen s % 8 = 0 := by omega
  rw [e2, e3] at h
  exact h

/-- Witness for C6: buffer 01 (bits 00000001): seven 0-bits, the terminator
as the last bit, no suffix bits remain; the decode succeeds with value
0 + 2^7 - 1 = 127 and the cursor at the end of the buffer. -/
theorem c6_glm_suffix_truncated_witness :
    BinParser_getGlm ⟨[1], 0, 0⟩ = .ret 0 (some (bitsBE [1] (absPos ⟨[1], 0, 0⟩ + 7 + 1)
        (8 * bufLen ⟨[1], 0, 0⟩ - (absPos ⟨[1], 0, 0⟩ + 7 + 1)) + (2 ^ 7 - 1)))
      ⟨[1], bufLen ⟨[1], 0, 0⟩, 0⟩ :=
  c6_glm_suffix_truncated ⟨[1], 0, 0⟩ 7 (by decide) (by decide) (by decide) (by decide)
    (by decide) (by decide) (by decide)

/-- C7: whenever getGlm succeeds with value u at some position, getSGlm at
the same position succeeds with the same final cursor and returns
(u >> 1) + 1 for odd u and -(u >> 1) for even u.  The hypothesis
u < 2^32 - 1 excludes the single corner u = 0xFFFFFFFF whose mapped value
(u >> 1) + 1 = 2^31 does not fit in the int32_t out-parameter (under defined
C arithmetic that u needs zeros >= 32, where the source's (1 << zeros) is
already undefined). -/
theorem c7_sglm_zigzag (s : BP) (u : Nat) (s1 : BP)
    (hu : BinParser_getGlm s = .ret 0 (some u) s1) (hub : u < 4294967295) :
    BinParser_getSGlm s = .ret 0 (some (if u % 2 = 1 then ((u / 2 : Nat) : Int) + 1
      else -((u / 2 : Nat) : Int))) s1 := by
  unfold BinParser_getSGlm
  rw [hu]
  simp only []
  have hsh : u >>> 1 = u / 2 := by
    rw [Nat.shiftRight_eq_div_pow]
  by_cases hodd : u % 2 = 1
  · rw [if_pos hodd, if_pos hodd, hsh]
    unfold toInt32
    rw [Nat.mod_eq_of_lt (by omega), Nat.mod_eq_of_lt (by omega), if_pos (by omega)]
    push_cast
    rfl
  · rw [if_neg hodd, if_neg hodd, hsh]
    unfold toInt32
    by_cases hx : u / 2 = 0
    · rw [hx]
      norm_num
    · rw [Nat.mod_eq_of_lt (by omega), Nat.mod_eq_of_lt (by omega), if_neg (by omega)]
      rw [Nat.cast_sub (by omega : u / 2 ≤ 4294967296)]
      push_cast
      ring_nf

/-- Witness for C7: the code 010 decodes to the unsigned value 1 and the
signed read maps it to +1. -/
theorem c7_sglm_zigzag_witness :
    BinParser_getSGlm ⟨[64], 0, 0⟩ = .ret 0 (some (if 1 % 2 = 1 then ((1 / 2 : Nat) : Int) + 1
      else -((1 / 2 : Nat) : Int))) ⟨[64], 0, 3⟩ :=
  c7_sglm_zigzag ⟨[64], 0, 0⟩ 1 ⟨[64], 0, 3⟩
    (by simp [BinParser_getGlm, glmZerosLoop, glmSuffixLoop, bufLen, List.get?]) (by decide)

/-- C9: for n >= 1 and a cursor inside the buffer (bytePos < length):
alignedByte = bytePos - bytePos % n + n is the next multiple-of-n byte
boundary strictly after the cursor; when already aligned (bytePos % n == 0
and bitPos == 0) alignBytes succeeds without change; otherwise it moves the
cursor to (alignedByte, 0) exactly when alignedByte is inside the buffer and
fails leaving the cursor unchanged exactly when alignedByte is at or past
the buffer length.  The smallness hypothesis keeps the source's unsigned int
alignedByte exact. -/
theorem c9_alignBytes_next_boundary (s : BP) (n : Nat) (_hInv : CursorInv s)
    (hin : s.posByte < bufLen s) (hn : 1 ≤ n) (hsmall : s.posByte + n < 4294967296) :
    (n ∣ (s.posByte - s.posByte % n + n)
      ∧ s.posByte < s.posByte - s.posByte % n + n
      ∧ (∀ m, n ∣ m → s.posByte < m → s.posByte - s.posByte % n + n ≤ m))
    ∧ ((s.posByte % n = 0 ∧ s.posBit = 0) → BinParser_alignBytes s n = .ret 0 none s)
    ∧ (¬ (s.posByte % n = 0 ∧ s.posBit = 0) →
        ((s.posByte - s.posByte % n + n < bufLen s →
           BinParser_alignBytes s n = .ret 0 none ⟨s.buf, s.posByte - s.posByte % n + n, 0⟩)
         ∧ (bufLen s ≤ s.posByte - s.posByte % n + n →
           BinParser_alignBytes s n = .ret 1 none s))) := by
  have hrem : s.posByte % n < n := Nat.mod_lt _ (by omega)
  have hdm : n * (s.posByte / n) + s.posByte % n = s.posByte := Nat.div_add_mod _ _
  have hisin : isInBuf s.posByte (bufLen s) = true := by
    unfold isInBuf
    rw [if_pos hin]
  have hna : n * (s.posByte / n + 1) = n * (s.posByte / n) + n := by ring
  have ha : s.posByte - s.posByte % n + n = n * (s.posByte / n + 1) := by
    rw [hna]
    omega
  refine ⟨⟨⟨s.posByte / n + 1, ha⟩, by omega, ?_⟩, ?_, ?_⟩
  · intro m hm hgt
    obtain ⟨q, rfl⟩ := hm
    have hq : s.posByte / n + 1 ≤ q := by
      by_contra hq
      have h1 : q ≤ s.posByte / n := by omega
      have h2 : n * q ≤ n * (s.posByte / n) := Nat.mul_le_mul_left _ h1
      omega
    have h3 : n * (s.posByte / n + 1) ≤ n * q := Nat.mul_le_mul_left _ hq
    omega
  · intro ⟨h1, h2⟩
    unfold BinParser_alignBytes
    rw [if_neg (by omega), hisin]
    simp only [if_pos (And.intro h1 h2), if_true]
  · intro hnal
    have hmod : (s.posByte - s.posByte % n + n) % 4294967296 = s.posByte - s.posByte % n + n :=
      Nat.mod_eq_of_lt (by omega)
    constructor
    · intro hlt
      unfold BinParser_alignBytes
      rw [if_neg (by omega), hisin]
      simp only [if_neg hnal, if_true, hmod]
      have hisin2 : isInBuf (s.posByte - s.posByte % n + n) (bufLen s) = true := by
        unfold isInBuf
        rw [if_pos hlt]
      rw [hisin2]
      simp only [if_true]
    · intro hge
      unfold BinParser_alignBytes
      rw [if_neg (by omega), hisin]
      simp only [if_neg hnal, if_true, hmod]
      have hisin2 : isInBuf (s.posByte - s.posByte % n + n) (bufLen s) = false := by
        unfold isInBuf
        rw [if_neg (by omega)]
      rw [hisin2]
      simp only [Bool.false_eq_true, if_false]

/-- Witness for C9 at buffer length 3, cursor (0,3), n = 2: the next 2-byte
boundary is byte 2, inside the buffer, so alignBytes moves the cursor
there. -/
theorem c9_alignBytes_next_boundary_witness :
    BinParser_alignBytes ⟨[9, 9, 9], 0, 3⟩ 2 = .ret 0 none ⟨[9, 9, 9], 0 - 0 % 2 + 2, 0⟩ :=
  (((c9_alignBytes_next_boundary ⟨[9, 9, 9], 0, 3⟩ 2 (by decide) (by decide) (by decide)
    (by decide)).2.2 (by decide)).1 (by decide))

/-- Counterexample for C4: a misaligned byte-run read (cursor (0,3)) and a
byte-aligned but out-of-buffer byte-run read both return the same status 1;
the source has no distinct error codes, so the two failure causes are not
distinguishable from the result. -/
theorem c4_getBytes_errors_same_status :
    BinParser_getBytes ⟨[7, 7], 0, 3⟩ 1 = .ret 1 none ⟨[7, 7], 0, 3⟩
    ∧ BinParser_getBytes ⟨[7], 0, 0⟩ 2 = .ret 1 none ⟨[7], 0, 0⟩ :=
  ⟨by decide, by decide⟩

/-- C4 (amended): getBytes fails with status 1 on every non-byte-aligned
cursor, and also fails with the same status 1 when byte-aligned but with
fewer than the requested whole bytes remaining; the two failures are
indistinguishable by the returned status. -/
theorem c4_getBytes_failure_statuses (s : BP) (bytes : Nat) :
    (s.posBit ≠ 0 → BinParser_getBytes s bytes = .ret 1 none s)
    ∧ (s.posBit = 0 → hasRest s.posByte s.posBit bytes 0 (bufLen s) = false →
        BinParser_getBytes s bytes = .ret 1 none s) := by
  constructor
  · intro h
    have hal : isByteAligned s = false := by
      unfold isByteAligned
      simp [h]
    unfold BinParser_getBytes
    rw [hal]
    simp only [Bool.false_eq_true, if_false]
  · intro h hcap
    have hal : isByteAligned s = true := by
      unfold isByteAligned
      simp [h]
    unfold BinParser_getBytes
    rw [hal, hcap]
    simp only [Bool.false_eq_true, if_false, if_true]

/-- Witness for the amended C4 at a concrete misaligned state. -/
theorem c4_getBytes_failure_statuses_witness :
    BinParser_getBytes ⟨[7, 7], 0, 5⟩ 1 = .ret 1 none ⟨[7, 7], 0, 5⟩ :=
  (c4_getBytes_failure_statuses ⟨[7, 7], 0, 5⟩ 1).1 (by decide)

/- Error paths leave the state unchanged: every return-1 branch of the source
runs before any write to the object fields. -/

theorem getBool_err (s : BP) (st : Nat) (v : Option Bool) (s2 : BP)
    (h : BinParser_getBool s = .ret st v s2) (hst : st ≠ 0) : s2 = s := by
  unfold BinParser_getBool at h
  split at h <;> try split at h
  all_goals simp_all

theorem getUInt32_err (s : BP) (bits st : Nat) (v : Option Nat) (s2 : BP)
    (h : BinParser_getUInt32 s bits = .ret st v s2) (hst : st ≠ 0) : s2 = s := by
  unfold BinParser_getUInt32 at h
  split at h
  · simp_all
  · split at h
    · split at h <;> simp_all
    · simp_all

theorem getUInt64_err (s : BP) (bits st : Nat) (v : Option Nat) (s2 : BP)
    (h : BinParser_getUInt64 s bits = .ret st v s2) (hst : st ≠ 0) : s2 = s := by
  rw [getUInt64_eq_getUInt32] at h
  exact getUInt32_err s bits st v s2 h hst

theorem getInt32_err (s : BP) (bits st : Nat) (v : Option Int) (s2 : BP)
    (h : BinParser_getInt32 s bits = .ret st v s2) (hst : st ≠ 0) : s2 = s := by
  unfold BinParser_getInt32 at h
  split at h
  · simp_all
  · simp_all
  · rename_i status val s1 hno heq
    simp only [BPRes.ret.injEq] at h
    obtain ⟨h1, h2, h3⟩ := h
    rw [← h3]
    exact getUInt32_err s bits status val s1 heq (by omega)

theorem getInt64_err (s : BP) (bits st : Nat) (v : Option Int) (s2 : BP)
    (h : BinParser_getInt64 s bits = .ret st v s2) (hst : st ≠ 0) : s2 = s := by
  unfold BinParser_getInt64 at h
  split at h
  · simp_all
  · simp_all
  · rename_i status val s1 hno heq
    simp only [BPRes.ret.injEq] at h
    obtain ⟨h1, h2, h3⟩ := h
    rw [← h3]
    exact getUInt64_err s bits status val s1 heq (by omega)

theorem getBytes_err (s : BP) (bytes st : Nat) (v : Option (List Nat)) (s2 : BP)
    (h : BinParser_getBytes s bytes = .ret st v s2) (hst : st ≠ 0) : s2 = s := by
  unfold BinParser_getBytes at h
  split at h
  · split at h
    · split at h <;> simp_all
    · simp_all
  · simp_all

theorem getGlm_err (s : BP) (st : Nat) (v : Option Nat) (s2 : BP)
    (h : BinParser_getGlm s = .ret st v s2) (hst : st ≠ 0) : s2 = s := by
  unfold BinParser_getGlm at h
  split at h
  · simp_all
  · simp_all
  · split at h
    · simp_all
    · dsimp only [] at h
      split at h <;> simp_all

theorem getSGlm_err (s : BP) (st : Nat) (v : Option Int) (s2 : BP)
    (h : BinParser_getSGlm s = .ret st v s2) (hst : st ≠ 0) : s2 = s := by
  unfold BinParser_getSGlm at h
  split at h
  · simp_all
  · split at h <;> simp_all
  · rename_i status val s1 hno heq
    simp only [BPRes.ret.injEq] at h
    obtain ⟨h1, h2, h3⟩ := h
    rw [← h3]
    exact getGlm_err s status val s1 heq (by omega)

theorem alignByte_err (s : BP) (st : Nat) (v : Option Unit) (s2 : BP)
    (h : BinParser_alignByte s = .ret st v s2) (hst : st ≠ 0) : s2 = s := by
  unfold BinParser_alignByte at h
  split at h <;> try split at h
  all_goals simp_all

theorem alignBytes_err (s : BP) (bytes st : Nat) (v : Option Unit) (s2 : BP)
    (h : BinParser_alignBytes s bytes = .ret st v s2) (hst : st ≠ 0) : s2 = s := by
  unfold BinParser_alignBytes at h
  split at h
  · simp_all
  · split at h
    · try dsimp only [] at h
      split at h
      · simp_all
      · try dsimp only [] at h
        split at h <;> simp_all
    · simp_all

theorem seek_underscore_err (s : BP) (pB pBit st : Nat) (v : Option Unit) (s2 : BP)
    (h : seek_ s pB pBit = .ret st v s2) (hst : st ≠ 0) : s2 = s := by
  unfold seek_ at h
  split at h <;> simp_all

theorem seek_err (s : BP) (pB pBit st : Nat) (v : Option Unit) (s2 : BP)
    (h : BinParser_seek s pB pBit = .ret st v s2) (hst : st ≠ 0) : s2 = s :=
  seek_underscore_err s pB pBit st v s2 h hst

theorem skip_err (s : BP) (bytes bits st : Nat) (v : Option Unit) (s2 : BP)
    (h : BinParser_skip s bytes bits = .ret st v s2) (hst : st ≠ 0) : s2 = s := by
  unfold BinParser_skip at h
  exact seek_underscore_err s _ _ st v s2 h hst

theorem reset_err (s : BP) (buf2 : List Nat) (st : Nat) (v : Option Unit) (s2 : BP)
    (h : BinParser_reset s buf2 = .ret st v s2) (hst : st ≠ 0) : s2 = s := by
  unfold BinParser_reset at h
  simp_all

/-- C3: for every public operation and every starting state, a nonzero
(error) return leaves the reader state exactly as it was before the call —
including getGlm when the prefix scan runs off the end or the terminating
1-bit is missing: all its error returns happen before the single write-back
of the cursor. -/
theorem c3_error_leaves_state_unchanged (s : BP)
    (bits bytes n pB pBit skb skbit : Nat) (buf2 : List Nat) :
    (∀ st v s2, BinParser_getBool s = .ret st v s2 → st ≠ 0 → s2 = s)
    ∧ (∀ st v s2, BinParser_getUInt32 s bits = .ret st v s2 → st ≠ 0 → s2 = s)
    ∧ (∀ st v s2, BinParser_getUInt64 s bits = .ret st v s2 → st ≠ 0 → s2 = s)
    ∧ (∀ st v s2, BinParser_getInt32 s bits = .ret st v s2 → st ≠ 0 → s2 = s)
    ∧ (∀ st v s2, BinParser_getInt64 s bits = .ret st v s2 → st ≠ 0 → s2 = s)
    ∧ (∀ st v s2, BinParser_getBytes s bytes = .ret st v s2 → st ≠ 0 → s2 = s)
    ∧ (∀ st v s2, BinParser_getGlm s = .ret st v s2 → st ≠ 0 → s2 = s)
    ∧ (∀ st v s2, BinParser_getSGlm s = .ret st v s2 → st ≠ 0 → s2 = s)
    ∧ (∀ st v s2, BinParser_alignByte s = .ret st v s2 → st ≠ 0 → s2 = s)
    ∧ (∀ st v s2, BinParser_alignBytes s n = .ret st v s2 → st ≠ 0 → s2 = s)
    ∧ (∀ st v s2, BinParser_seek s pB pBit = .ret st v s2 → st ≠ 0 → s2 = s)
    ∧ (∀ st v s2, BinParser_skip s skb skbit = .ret st v s2 → st ≠ 0 → s2 = s)
    ∧ (∀ st v s2, BinParser_reset s buf2 = .ret st v s2 → st ≠ 0 → s2 = s) :=
  ⟨fun st v s2 h hst => getBool_err s st v s2 h hst,
   fun st v s2 h hst => getUInt32_err s bits st v s2 h hst,
   fun st v s2 h hst => getUInt64_err s bits st v s2 h hst,
   fun st v s2 h hst => getInt32_err s bits st v s2 h hst,
   fun st v s2 h hst => getInt64_err s bits st v s2 h hst,
   fun st v s2 h hst => getBytes_err s bytes st v s2 h hst,
   fun st v s2 h hst => getGlm_err s st v s2 h hst,
   fun st v s2 h hst => getSGlm_err s st v s2 h hst,
   fun st v s2 h hst => alignByte_err s st v s2 h hst,
   fun st v s2 h hst => alignBytes_err s n st v s2 h hst,
   fun st v s2 h hst => seek_err s pB pBit st v s2 h hst,
   fun st v s2 h hst => skip_err s skb skbit st v s2 h hst,
   fun st v s2 h hst => reset_err s buf2 st v s2 h hst⟩

/-- Witness for C3: getGlm on the all-zero one-byte buffer (prefix scan runs
off the end) errors with status 1 and the state is returned unchanged. -/
theorem c3_error_leaves_state_unchanged_witness :
    BinParser_getGlm ⟨[0], 0, 0⟩ = .ret 1 none ⟨[0], 0, 0⟩
    ∧ (⟨[0], 0, 0⟩ : BP) = ⟨[0], 0, 0⟩ := by
  have heq : BinParser_getGlm ⟨[0], 0, 0⟩ = .ret 1 none ⟨[0], 0, 0⟩ := by
    simp [BinParser_getGlm, glmZerosLoop, glmSuffixLoop, bufLen, List.get?]
  exact ⟨heq, (c3_error_leaves_state_unchanged ⟨[0], 0, 0⟩ 0 0 0 0 0 0 0 []).2.2.2.2.2.2.1
    1 none ⟨[0], 0, 0⟩ heq (by decide)⟩

/- Invariant preservation helpers. -/

theorem cursorInv_mk (buf : List Nat) (p b : Nat) :
    CursorInv ⟨buf, p, b⟩ ↔ (b < 8 ∧ (p < buf.length ∨ (p = buf.length ∧ b = 0))) :=
  Iff.rfl

theorem inv_advance (s : BP) (bytes bits : Nat) (hInv : CursorInv s)
    (hL : bufLen s ≤ 268435456) (hbytes : bytes ≤ 268435456) (hbits : bits ≤ 268435456)
    (htrue : hasRest s.posByte s.posBit bytes bits (bufLen s) = true) :
    CursorInv ⟨s.buf, (advancePos s.posByte s.posBit bytes bits).1,
      (advancePos s.posByte s.posBit bytes bits).2⟩ := by
  obtain ⟨hb, hpos⟩ := hInv
  have hposL : s.posByte ≤ bufLen s := by
    rcases hpos with h | ⟨h, _⟩
    · omega
    · omega
  rw [hasRest_iff _ _ _ _ _ (by omega) (by omega)] at htrue
  rw [advancePos_eq _ _ _ _ (by omega) (by omega)]
  unfold CursorInv bufLen
  simp only []
  have hLb : s.buf.length = bufLen s := rfl
  rw [hLb]
  omega

theorem getUInt32_ok_some (s : BP) (bits : Nat) (v : Option Nat) (s2 : BP)
    (h : BinParser_getUInt32 s bits = .ret 0 v s2) : ∃ u, v = some u := by
  unfold BinParser_getUInt32 at h
  split at h
  · simp only [BPRes.ret.injEq] at h
    exact ⟨0, h.2.1.symm⟩
  · split at h
    · split at h
      · simp_all
      · rename_i t r
        simp only [BPRes.ret.injEq] at h
        exact ⟨_, h.2.1.symm⟩
    · simp_all

theorem getGlm_ok_some (s : BP) (v : Option Nat) (s2 : BP)
    (h : BinParser_getGlm s = .ret 0 v s2) : ∃ u, v = some u := by
  unfold BinParser_getGlm at h
  split at h
  · simp_all
  · simp_all
  · split at h
    · simp_all
    · dsimp only [] at h
      split at h
      · simp_all
      · simp_all
      · simp only [BPRes.ret.injEq] at h
        exact ⟨_, h.2.1.symm⟩

theorem getBool_inv (s : BP) (v : Option Bool) (s2 : BP) (hInv : CursorInv s)
    (hL : bufLen s ≤ 268435456)
    (h : BinParser_getBool s = .ret 0 v s2) : CursorInv s2 := by
  unfold BinParser_getBool at h
  split at h
  · rename_i htrue
    split at h
    · simp_all
    · dsimp only [] at h
      simp only [BPRes.ret.injEq] at h
      rw [← h.2.2]
      exact inv_advance s 0 1 hInv hL (by omega) (by omega) htrue
  · simp_all

theorem getUInt32_inv (s : BP) (bits : Nat) (v : Option Nat) (s2 : BP) (hInv : CursorInv s)
    (hL : bufLen s ≤ 268435456) (hbits : bits ≤ 268435456)
    (h : BinParser_getUInt32 s bits = .ret 0 v s2) : CursorInv s2 := by
  unfold BinParser_getUInt32 at h
  split at h
  · simp only [BPRes.ret.injEq] at h
    rw [← h.2.2]
    exact hInv
  · split at h
    · rename_i htrue
      split at h
      · simp_all
      · dsimp only [] at h
        simp only [BPRes.ret.injEq] at h
        rw [← h.2.2]
        exact inv_advance s 0 bits hInv hL (by omega) hbits htrue
    · simp_all

theorem getUInt64_inv (s : BP) (bits : Nat) (v : Option Nat) (s2 : BP) (hInv : CursorInv s)
    (hL : bufLen s ≤ 268435456) (hbits : bits ≤ 268435456)
    (h : BinParser_getUInt64 s bits = .ret 0 v s2) : CursorInv s2 := by
  rw [getUInt64_eq_getUInt32] at h
  exact getUInt32_inv s bits v s2 hInv hL hbits h

theorem getInt32_inv (s : BP) (bits : Nat) (v : Option Int) (s2 : BP) (hInv : CursorInv s)
    (hL : bufLen s ≤ 268435456) (hbits : bits ≤ 268435456)
    (h : BinParser_getInt32 s bits = .ret 0 v s2) : CursorInv s2 := by
  unfold BinParser_getInt32 at h
  split at h
  · simp_all
  · rename_i t s1 heq
    simp only [BPRes.ret.injEq] at h
    rw [← h.2.2]
    exact getUInt32_inv s bits _ s1 hInv hL hbits heq
  · rename_i status val s1 hno heq
    simp only [BPRes.ret.injEq] at h
    obtain ⟨h1, h2, h3⟩ := h
    rw [h1] at heq
    obtain ⟨u, hu⟩ := getUInt32_ok_some s bits val s1 heq
    exact (hno u h1 hu).elim

theorem getInt64_inv (s : BP) (bits : Nat) (v : Option Int) (s2 : BP) (hInv : CursorInv s)
    (hL : bufLen s ≤ 268435456) (hbits : bits ≤ 268435456)
    (h : BinParser_getInt64 s bits = .ret 0 v s2) : CursorInv s2 := by
  unfold BinParser_getInt64 at h
  split at h
  · simp_all
  · rename_i t s1 heq
    simp only [BPRes.ret.injEq] at h
    rw [← h.2.2]
    exact getUInt64_inv s bits _ s1 hInv hL hbits heq
  · rename_i status val s1 hno heq
    simp only [BPRes.ret.injEq] at h
    obtain ⟨h1, h2, h3⟩ := h
    rw [h1] at heq
    rw [getUInt64_eq_getUInt32] at heq
    obtain ⟨u, hu⟩ := getUInt32_ok_some s bits val s1 heq
    exact (hno u h1 hu).elim

theorem getBytes_inv (s : BP) (bytes : Nat) (v : Option (List Nat)) (s2 : BP)
    (hInv : CursorInv s) (hL : bufLen s ≤ 268435456) (hbytes : bytes ≤ 268435456)
    (h : BinParser_getBytes s bytes = .ret 0 v s2) : CursorInv s2 := by
  unfold BinParser_getBytes at h
  split at h
  · split at h
    · rename_i hal htrue
      split at h
      · simp_all
      · dsimp only [] at h
        simp only [BPRes.ret.injEq] at h
        rw [← h.2.2]
        exact inv_advance s bytes 0 hInv hL hbytes (by omega) htrue
    · simp_all
  · simp_all

theorem getGlm_inv (s : BP) (v : Option Nat) (s2 : BP) (hInv : CursorInv s)
    (hL : bufLen s ≤ 268435456)
    (h : BinParser_getGlm s = .ret 0 v s2) : CursorInv s2 := by
  obtain ⟨hb, hpos⟩ := hInv
  have hposL : s.posByte ≤ bufLen s := by
    rcases hpos with h1 | ⟨h1, _⟩
    · omega
    · omega
  have hLb : bufLen s ≤ s.buf.length := le_of_eq rfl
  have hmod : s.posByte % 4294967296 = s.posByte := Nat.mod_eq_of_lt (by omega)
  obtain ⟨z2, p2, b2, hzl, hgb, hgp, hge⟩ := glmZerosLoop_done s.buf (bufLen s) hLb
    (9 * bufLen s - (9 * (s.posByte % 4294967296) + min s.posBit 8)) 0
    (s.posByte % 4294967296) s.posBit (le_refl _) hb (by omega) (by omega)
  unfold BinParser_getGlm at h
  rw [hzl] at h
  dsimp only [] at h
  split at h
  · simp_all
  · rename_i hp2
    obtain ⟨t3, p3, b3, hsl, hsb, hsp, hse⟩ := glmSuffixLoop_done s.buf (bufLen s) hLb
      z2 0 (p2 + (b2 + 1) / 8) ((b2 + 1) % 8) (by omega) (by omega) (by omega)
    rw [hsl] at h
    simp only [BPRes.ret.injEq] at h
    rw [← h.2.2]
    unfold CursorInv bufLen
    simp only []
    have hLb2 : s.buf.length = bufLen s := rfl
    rw [hLb2]
    omega

theorem getSGlm_inv (s : BP) (v : Option Int) (s2 : BP) (hInv : CursorInv s)
    (hL : bufLen s ≤ 268435456)
    (h : BinParser_getSGlm s = .ret 0 v s2) : CursorInv s2 := by
  unfold BinParser_getSGlm at h
  split at h
  · simp_all
  · rename_i t s1 heq
    split at h <;>
    · simp only [BPRes.ret.injEq] at h
      rw [← h.2.2]
      exact getGlm_inv s _ s1 hInv hL heq
  · rename_i status val s1 hno heq
    simp only [BPRes.ret.injEq] at h
    obtain ⟨h1, h2, h3⟩ := h
    rw [h1] at heq
    obtain ⟨u, hu⟩ := getGlm_ok_some s val s1 heq
    exact (hno u h1 hu).elim

theorem alignByte_inv (s : BP) (v : Option Unit) (s2 : BP) (hInv : CursorInv s)
    (hL : bufLen s ≤ 268435456)
    (h : BinParser_alignByte s = .ret 0 v s2) : CursorInv s2 := by
  obtain ⟨hb, hpos⟩ := hInv
  unfold BinParser_alignByte at h
  split at h
  · rename_i hin
    unfold isInBuf at hin
    split at h
    · simp only [BPRes.ret.injEq] at h
      rw [← h.2.2]
      have hpL : s.posByte < s.buf.length := by
        by_contra hc
        rw [if_neg (by unfold bufLen; exact hc)] at hin
        simp at hin
      have hm : (s.posByte + 1) % 18446744073709551616 = s.posByte + 1 :=
        Nat.mod_eq_of_lt (by omega)
      rw [cursorInv_mk, hm]
      omega
    · simp only [BPRes.ret.injEq] at h
      rw [← h.2.2]
      exact ⟨hb, hpos⟩
  · simp only [BPRes.ret.injEq] at h
    rw [← h.2.2]
    exact ⟨hb, hpos⟩

theorem alignBytes_inv (s : BP) (n : Nat) (v : Option Unit) (s2 : BP) (hInv : CursorInv s)
    (h : BinParser_alignBytes s n = .ret 0 v s2) : CursorInv s2 := by
  obtain ⟨hb, hpos⟩ := hInv
  unfold BinParser_alignBytes at h
  split at h
  · simp_all
  · split at h
    · try dsimp only [] at h
      split at h
      · simp only [BPRes.ret.injEq] at h
        rw [← h.2.2]
        exact ⟨hb, hpos⟩
      · try dsimp only [] at h
        split at h
        · rename_i hin2
          unfold isInBuf at hin2
          simp only [BPRes.ret.injEq] at h
          rw [← h.2.2]
          have hlt : (s.posByte - s.posByte % n + n) % 4294967296 < s.buf.length := by
            by_contra hc
            rw [if_neg (by unfold bufLen; exact hc)] at hin2
            simp at hin2
          rw [cursorInv_mk]
          omega
        · simp_all
    · simp only [BPRes.ret.injEq] at h
      rw [← h.2.2]
      exact ⟨hb, hpos⟩

theorem seek_inv (s : BP) (pB pBit : Nat) (v : Option Unit) (s2 : BP)
    (hpBit : pBit < 8)
    (h : BinParser_seek s pB pBit = .ret 0 v s2) : CursorInv s2 := by
  unfold BinParser_seek seek_ at h
  split at h
  · rename_i hin
    unfold isInBuf at hin
    simp only [BPRes.ret.injEq] at h
    rw [← h.2.2]
    have hlt : pB < s.buf.length := by
      by_contra hc
      rw [if_neg (by unfold bufLen; exact hc)] at hin
      simp at hin
    rw [cursorInv_mk]
    omega
  · simp_all

theorem skip_inv (s : BP) (bytes bits : Nat) (v : Option Unit) (s2 : BP)
    (h : BinParser_skip s bytes bits = .ret 0 v s2) : CursorInv s2 := by
  unfold BinParser_skip seek_ at h
  dsimp only [] at h
  split at h
  · rename_i hin
    unfold isInBuf at hin
    simp only [BPRes.ret.injEq] at h
    rw [← h.2.2]
    rw [cursorInv_mk]
    constructor
    · exact Nat.mod_lt _ (by omega)
    · left
      by_contra hc
      rw [if_neg (by unfold bufLen; exact hc)] at hin
      simp at hin
  · simp_all

theorem reset_inv (s : BP) (buf2 : List Nat) (v : Option Unit) (s2 : BP)
    (h : BinParser_reset s buf2 = .ret 0 v s2) : CursorInv s2 := by
  unfold BinParser_reset at h
  simp only [BPRes.ret.injEq] at h
  rw [← h.2.2]
  rw [cursorInv_mk]
  omega

/-- Counterexample for C2: seek validates only the byte component, so from
the invariant-satisfying state (buffer length 1, cursor (0,0)) the call
seek(0, 8) succeeds and leaves bitPos = 8, violating the invariant
bitPos in [0,8). -/
theorem c2_seek_breaks_invariant :
    CursorInv ⟨[0], 0, 0⟩
    ∧ BinParser_seek ⟨[0], 0, 0⟩ 0 8 = .ret 0 none ⟨[0], 0, 8⟩
    ∧ ¬ CursorInv ⟨[0], 0, 8⟩ :=
  ⟨by decide, by decide, by decide⟩

/-- C2 (amended): every public operation except seek preserves the cursor
invariant on success, provided the buffer length and the size arguments stay
below 2^28 so that the source's 32-bit position arithmetic cannot wrap; seek
preserves it exactly when its (unvalidated) bit argument is below 8. -/
theorem c2_success_preserves_invariant (s : BP) (hInv : CursorInv s)
    (hL : bufLen s ≤ 268435456) (bits bytes n pB pBit skb skbit : Nat) (buf2 : List Nat)
    (hbits : bits ≤ 268435456) (hbytes : bytes ≤ 268435456)
    (hpBit : pBit < 8) :
    (∀ v s2, BinParser_getBool s = .ret 0 v s2 → CursorInv s2)
    ∧ (∀ v s2, BinParser_getUInt32 s bits = .ret 0 v s2 → CursorInv s2)
    ∧ (∀ v s2, BinParser_getUInt64 s bits = .ret 0 v s2 → CursorInv s2)
    ∧ (∀ v s2, BinParser_getInt32 s bits = .ret 0 v s2 → CursorInv s2)
    ∧ (∀ v s2, BinParser_getInt64 s bits = .ret 0 v s2 → CursorInv s2)
    ∧ (∀ v s2, BinParser_getBytes s bytes = .ret 0 v s2 → CursorInv s2)
    ∧ (∀ v s2, BinParser_getGlm s = .ret 0 v s2 → CursorInv s2)
    ∧ (∀ v s2, BinParser_getSGlm s = .ret 0 v s2 → CursorInv s2)
    ∧ (∀ v s2, BinParser_alignByte s = .ret 0 v s2 → CursorInv s2)
    ∧ (∀ v s2, BinParser_alignBytes s n = .ret 0 v s2 → CursorInv s2)
    ∧ (∀ v s2, BinParser_seek s pB pBit = .ret 0 v s2 → CursorInv s2)
    ∧ (∀ v s2, BinParser_skip s skb skbit = .ret 0 v s2 → CursorInv s2)
    ∧ (∀ v s2, BinParser_reset s buf2 = .ret 0 v s2 → CursorInv s2) :=
  ⟨fun v s2 h => getBool_inv s v s2 hInv hL h,
   fun v s2 h => getUInt32_inv s bits v s2 hInv hL hbits h,
   fun v s2 h => getUInt64_inv s bits v s2 hInv hL hbits h,
   fun v s2 h => getInt32_inv s bits v s2 hInv hL hbits h,
   fun v s2 h => getInt64_inv s bits v s2 hInv hL hbits h,
   fun v s2 h => getBytes_inv s bytes v s2 hInv hL hbytes h,
   fun v s2 h => getGlm_inv s v s2 hInv hL h,
   fun v s2 h => getSGlm_inv s v s2 hInv hL h,
   fun v s2 h => alignByte_inv s v s2 hInv hL h,
   fun v s2 h => alignBytes_inv s n v s2 hInv h,
   fun v s2 h => seek_inv s pB pBit v s2 hpBit h,
   fun v s2 h => skip_inv s skb skbit v s2 h,
   fun v s2 h => reset_inv s buf2 v s2 h⟩

/-- Witness for the amended C2: a successful getBool from (0,0) on a
one-byte buffer leaves the cursor at (0,1), which satisfies the
invariant. -/
theorem c2_success_preserves_invariant_witness : CursorInv ⟨[176], 0, 1⟩ :=
  (c2_success_preserves_invariant ⟨[176], 0, 0⟩ (by decide) (by decide)
      0 0 1 0 0 0 0 [] (by decide) (by decide) (by decide)).1
    (some true) ⟨[176], 0, 1⟩ (by decide)

/- Out-of-bounds reachability: helper lemmas. -/

theorem readBitsLoop_none (buf : List Nat) (n acc p b : Nat) (h : buf.length ≤ p) :
    readBitsLoop buf (n + 1) acc p b = none := by
  have hg : buf[p]? = none := List.getElem?_eq_none h
  simp [readBitsLoop, hg]

/-- Counterexample for C10: from the invariant-satisfying state (one-byte
buffer, cursor (0,7)), a getUInt32 of 4294967289 bits wraps the 32-bit sum
posBit + bits to 0 inside hasRest, so the capacity check passes and the read
loop walks off the end of the buffer: the out-of-bounds access is
reachable. -/
theorem c10_capacity_check_wraps :
    CursorInv ⟨[0], 0, 7⟩ ∧ BinParser_getUInt32 ⟨[0], 0, 7⟩ 4294967289 = .oob := by
  refine ⟨by decide, ?_⟩
  unfold BinParser_getUInt32
  rw [if_neg (by norm_num), if_pos (by decide)]
  have h0 : (⟨[0], 0, 7⟩ : BP).posByte % 4294967296 = 0 := by norm_num
  rw [h0]
  have hstep : readBitsLoop [0] 4294967289 0 0 7 = readBitsLoop [0] 4294967288 0 1 0 := rfl
  rw [hstep]
  have h2 : readBitsLoop [0] 4294967288 0 1 0 = none := by
    rw [show (4294967288 : Nat) = 4294967287 + 1 from rfl]
    exact readBitsLoop_none [0] 4294967287 0 1 0 (by norm_num)
  rw [h2]

theorem copyBytesLoop_some (buf : List Nat) :
    ∀ n p, p + n ≤ buf.length → ∃ l, copyBytesLoop buf n p = some l := by
  intro n
  induction n with
  | zero =>
    intro p hp
    exact ⟨[], rfl⟩
  | succ n ih =>
    intro p hp
    have hpbuf : p < buf.length := by omega
    have hbyte : buf[p]? = some buf[p] := List.getElem?_eq_getElem hpbuf
    obtain ⟨l, hl⟩ := ih (p + 1) (by omega)
    exact ⟨buf[p] :: l, by simp [copyBytesLoop, hbyte, hl]⟩

theorem getBool_ne_oob (s : BP) (hInv : CursorInv s) (hL : bufLen s ≤ 268435456) :
    BinParser_getBool s ≠ .oob := by
  obtain ⟨hb, hpos⟩ := hInv
  have hposL : s.posByte ≤ bufLen s := by
    rcases hpos with h | ⟨h, _⟩
    · omega
    · omega
  unfold BinParser_getBool
  split
  · rename_i htrue
    rw [hasRest_iff _ _ _ _ _ (by omega) (by omega)] at htrue
    have hplt : s.posByte < s.buf.length := by
      have : bufLen s = s.buf.length := rfl
      omega
    obtain ⟨byte, hbyte⟩ : ∃ byte, s.buf.get? s.posByte = some byte := by
      rw [List.get?_eq_getElem?]
      exact ⟨s.buf[s.posByte], List.getElem?_eq_getElem hplt⟩
    rw [hbyte]
    simp only []
    intro hcon
    cases hcon
  · intro hcon
    cases hcon

theorem getUInt32_ne_oob (s : BP) (bits : Nat) (hInv : CursorInv s)
    (hL : bufLen s ≤ 268435456) (hbits : bits ≤ 268435456) :
    BinParser_getUInt32 s bits ≠ .oob := by
  obtain ⟨hb, hpos⟩ := hInv
  have hposL : s.posByte ≤ bufLen s := by
    rcases hpos with h | ⟨h, _⟩
    · omega
    · omega
  have hmod : s.posByte % 4294967296 = s.posByte := Nat.mod_eq_of_lt (by omega)
  unfold BinParser_getUInt32
  split
  · intro hcon
    cases hcon
  · split
    · rename_i hb0 htrue
      rw [hasRest_iff _ _ _ _ _ (by omega) (by omega)] at htrue
      rw [hmod]
      rw [readBitsLoop_spec s.buf bits 0 s.posByte s.posBit hb (by norm_num)
        (by have : bufLen s = s.buf.length := rfl; omega)]
      simp only []
      intro hcon
      cases hcon
    · intro hcon
      cases hcon

theorem getUInt64_ne_oob (s : BP) (bits : Nat) (hInv : CursorInv s)
    (hL : bufLen s ≤ 268435456) (hbits : bits ≤ 268435456) :
    BinParser_getUInt64 s bits ≠ .oob := by
  rw [getUInt64_eq_getUInt32]
  exact getUInt32_ne_oob s bits hInv hL hbits

theorem getInt32_ne_oob (s : BP) (bits : Nat) (hInv : CursorInv s)
    (hL : bufLen s ≤ 268435456) (hbits : bits ≤ 268435456) :
    BinParser_getInt32 s bits ≠ .oob := by
  unfold BinParser_getInt32
  split
  · rename_i heq
    exact absurd heq (getUInt32_ne_oob s bits hInv hL hbits)
  · intro hcon
    cases hcon
  · intro hcon
    cases hcon

theorem getInt64_ne_oob (s : BP) (bits : Nat) (hInv : CursorInv s)
    (hL : bufLen s ≤ 268435456) (hbits : bits ≤ 268435456) :
    BinParser_getInt64 s bits ≠ .oob := by
  unfold BinParser_getInt64
  split
  · rename_i heq
    rw [getUInt64_eq_getUInt32] at heq
    exact absurd heq (getUInt32_ne_oob s bits hInv hL hbits)
  · intro hcon
    cases hcon
  · intro hcon
    cases hcon

theorem getBytes_ne_oob (s : BP) (bytes : Nat) (hInv : CursorInv s)
    (hL : bufLen s ≤ 268435456) (hbytes : bytes ≤ 268435456) :
    BinParser_getBytes s bytes ≠ .oob := by
  obtain ⟨hb, hpos⟩ := hInv
  have hposL : s.posByte ≤ bufLen s := by
    rcases hpos with h | ⟨h, _⟩
    · omega
    · omega
  have hmod : s.posByte % 4294967296 = s.posByte := Nat.mod_eq_of_lt (by omega)
  unfold BinParser_getBytes
  split
  · split
    · rename_i hal htrue
      rw [hasRest_iff _ _ _ _ _ (by omega) (by omega)] at htrue
      rw [hmod]
      obtain ⟨l, hl⟩ := copyBytesLoop_some s.buf bytes s.posByte
        (by have : bufLen s = s.buf.length := rfl; omega)
      rw [hl]
      simp only []
      intro hcon
      cases hcon
    · intro hcon
      cases hcon
  · intro hcon
    cases hcon

theorem getGlm_ne_oob (s : BP) (hInv : CursorInv s) (hL : bufLen s ≤ 268435456) :
    BinParser_getGlm s ≠ .oob := by
  obtain ⟨hb, hpos⟩ := hInv
  have hposL : s.posByte ≤ bufLen s := by
    rcases hpos with h1 | ⟨h1, _⟩
    · omega
    · omega
  have hLb : bufLen s ≤ s.buf.length := le_of_eq rfl
  obtain ⟨z2, p2, b2, hzl, hgb, hgp, hge⟩ := glmZerosLoop_done s.buf (bufLen s) hLb
    (9 * bufLen s - (9 * (s.posByte % 4294967296) + min s.posBit 8)) 0
    (s.posByte % 4294967296) s.posBit (le_refl _) hb (by omega) (by omega)
  unfold BinParser_getGlm
  rw [hzl]
  dsimp only []
  split
  · intro hcon
    cases hcon
  · obtain ⟨t3, p3, b3, hsl, hsb, hsp, hse⟩ := glmSuffixLoop_done s.buf (bufLen s) hLb
      z2 0 (p2 + (b2 + 1) / 8) ((b2 + 1) % 8) (by omega) (by omega) (by omega)
    rw [hsl]
    intro hcon
    cases hcon

theorem getSGlm_ne_oob (s : BP) (hInv : CursorInv s) (hL : bufLen s ≤ 268435456) :
    BinParser_getSGlm s ≠ .oob := by
  unfold BinParser_getSGlm
  split
  · rename_i heq
    exact absurd heq (getGlm_ne_oob s hInv hL)
  · split
    · intro hcon
      cases hcon
    · intro hcon
      cases hcon
  · intro hcon
    cases hcon

theorem alignByte_ne_oob (s : BP) : BinParser_alignByte s ≠ .oob := by
  unfold BinParser_alignByte
  split
  · split
    · intro hcon
      cases hcon
    · intro hcon
      cases hcon
  · intro hcon
    cases hcon

theorem alignBytes_ne_oob (s : BP) (n : Nat) : BinParser_alignBytes s n ≠ .oob := by
  unfold BinParser_alignBytes
  split
  · intro hcon
    cases hcon
  · split
    · try dsimp only []
      split
      · intro hcon
        cases hcon
      · try dsimp only []
        split
        · intro hcon
          cases hcon
        · intro hcon
          cases hcon
    · intro hcon
      cases hcon

theorem seek_ne_oob (s : BP) (pB pBit : Nat) : BinParser_seek s pB pBit ≠ .oob := by
  unfold BinParser_seek seek_
  split
  · intro hcon
    cases hcon
  · intro hcon
    cases hcon

theorem skip_ne_oob (s : BP) (bytes bits : Nat) : BinParser_skip s bytes bits ≠ .oob := by
  unfold BinParser_skip seek_
  dsimp only []
  split
  · intro hcon
    cases hcon
  · intro hcon
    cases hcon

theorem reset_ne_oob (s : BP) (buf2 : List Nat) : BinParser_reset s buf2 ≠ .oob := by
  unfold BinParser_reset
  intro hcon
  cases hcon

/-- C10 (amended): under the cursor invariant, and with the buffer length and
the size arguments small enough that the 32-bit capacity arithmetic cannot
wrap (e.g. at most 2^28), no operation ever reads the buffer at an index at
or beyond the buffer length: the out-of-bounds outcome of the total
embedding is unreachable.  (Without the size bound this fails: see the
counterexample, where a huge bit count wraps hasRest's 32-bit sum and the
fixed-width read walks off the buffer.) -/
theorem c10_no_out_of_bounds_access (s : BP) (hInv : CursorInv s)
    (hL : bufLen s ≤ 268435456) (bits bytes n pB pBit skb skbit : Nat) (buf2 : List Nat)
    (hbits : bits ≤ 268435456) (hbytes : bytes ≤ 268435456) :
    BinParser_getBool s ≠ .oob
    ∧ BinParser_getUInt32 s bits ≠ .oob
    ∧ BinParser_getUInt64 s bits ≠ .oob
    ∧ BinParser_getInt32 s bits ≠ .oob
    ∧ BinParser_getInt64 s bits ≠ .oob
    ∧ BinParser_getBytes s bytes ≠ .oob
    ∧ BinParser_getGlm s ≠ .oob
    ∧ BinParser_getSGlm s ≠ .oob
    ∧ BinParser_alignByte s ≠ .oob
    ∧ BinParser_alignBytes s n ≠ .oob
    ∧ BinParser_seek s pB pBit ≠ .oob
    ∧ BinParser_skip s skb skbit ≠ .oob
    ∧ BinParser_reset s buf2 ≠ .oob :=
  ⟨getBool_ne_oob s hInv hL,
   getUInt32_ne_oob s bits hInv hL hbits,
   getUInt64_ne_oob s bits hInv hL hbits,
   getInt32_ne_oob s bits hInv hL hbits,
   getInt64_ne_oob s bits hInv hL hbits,
   getBytes_ne_oob s bytes hInv hL hbytes,
   getGlm_ne_oob s hInv hL,
   getSGlm_ne_oob s hInv hL,
   alignByte_ne_oob s,
   alignBytes_ne_oob s n,
   seek_ne_oob s pB pBit,
   skip_ne_oob s skb skbit,
   reset_ne_oob s buf2⟩

/-- Witness for the amended C10 at a concrete small state. -/
theorem c10_no_out_of_bounds_access_witness :
    BinParser_getUInt32 ⟨[180], 0, 0⟩ 3 ≠ .oob :=
  (c10_no_out_of_bounds_access ⟨[180], 0, 0⟩ (by decide) (by decide)
    3 1 1 0 0 0 0 [] (by decide) (by decide)).2.1
